import Mathlib

/-!
Verification of the click-to-blur tool `blur_faces.py`.

The source is a single Python file built around the class `BlurTool`:
an image (a numpy array of shape h x w x 3, uint8 channels), an undo
history (a Python list of full-image copies, most recent last), and two
integer parameters `radius` and `blur_strength`.  We embed the state as
a Lean structure; images are maps from integer coordinates to pixels
(3 channels of naturals), together with their width and height.  The
external library calls (`cv2.GaussianBlur`, which is out of repository
scope) enter as a parameter `blur : Nat -> Image -> Image`; the circle
rasterizer `cv2.circle(mask, c, r, 255, -1)` is embedded as the filled
integer disk, which is the filled-circle rasterization the spec names.
numpy `.copy()` gives value semantics, which is what immutable Lean
values provide by construction.
-/

namespace BlurFaces

/-- A pixel: 3 colour channels (BGR, uint8 in the source; the claims never
depend on the 0..255 channel range, only on pixel identity, so channels are
naturals). -/
def Pixel : Type := Fin 3 → ℕ

/-- An image: `h` x `w` grid of pixels.  `pix y x c` is channel `c` of the
pixel in row `y`, column `x`; values outside `[0,h) x [0,w)` are irrelevant
(never read by in-bounds code paths). -/
structure Image where
  w : ℕ
  h : ℕ
  pix : ℤ → ℤ → Pixel

/-- State of `BlurTool` (`__init__`, lines 28-40): the live image, the undo
history (most recent first here, mirroring a Python list used as a stack via
`append`/`pop`), the brush radius, the blur strength, the mouse position and
the input path. -/
structure BlurState where
  image_path : List Char
  image : Image
  history : List Image
  radius : ℕ
  blur_strength : ℕ
  mouse_pos : ℤ × ℤ

/-- `x1 = max(cx - r, 0)` (line 72). -/
def bboxX1 (cx : ℤ) (r : ℕ) : ℤ := max (cx - r) 0

/-- `y1 = max(cy - r, 0)` (line 73). -/
def bboxY1 (cy : ℤ) (r : ℕ) : ℤ := max (cy - r) 0

/-- `x2 = min(cx + r, w)` (line 74). -/
def bboxX2 (cx : ℤ) (r : ℕ) (w : ℕ) : ℤ := min (cx + r) w

/-- `y2 = min(cy + r, h)` (line 75). -/
def bboxY2 (cy : ℤ) (r : ℕ) (h : ℕ) : ℤ := min (cy + r) h

/-- `roi = self.image[y1:y2, x1:x2]` (line 84): the sub-image of extent
`(x2-x1) x (y2-y1)` whose local pixel `(ly,lx)` is the global pixel
`(y1+ly, x1+lx)`. -/
def extractRoi (img : Image) (x1 y1 x2 y2 : ℤ) : Image :=
  { w := (x2 - x1).toNat
    h := (y2 - y1).toNat
    pix := fun ly lx => img.pix (y1 + ly) (x1 + lx) }

/-- The mask built by `np.zeros` + `cv2.circle(mask, (cx-x1, cy-y1), r, 255, -1)`
(lines 90-92): value 255 on the filled disk of radius `r` centred at the local
coordinates `(ccx, ccy)`, 0 elsewhere. -/
def circleMask (ccx ccy : ℤ) (r : ℕ) (ly lx : ℤ) : ℕ :=
  if (lx - ccx) ^ 2 + (ly - ccy) ^ 2 ≤ (r : ℤ) ^ 2 then 255 else 0

/-- `self.image[y1:y2, x1:x2] = roi_out` (line 97): write `sub` (in local
coordinates) over the rectangle `[x1,x2) x [y1,y2)` of `img`. -/
def writeRegion (img : Image) (x1 y1 x2 y2 : ℤ) (sub : Image) : Image :=
  { img with pix := fun y x =>
      if x1 ≤ x ∧ x < x2 ∧ y1 ≤ y ∧ y < y2 then sub.pix (y - y1) (x - x1)
      else img.pix y x }

/-- `BlurTool._apply_blur` (lines 66-97).  `blur` stands for
`cv2.GaussianBlur(roi, (ksize, ksize), ksize / 3.0)`: it receives the odd
kernel size (the sigma is a function of it) and the ROI.  The degenerate-box
early return, the history push of a full copy of the live image, the ROI
blur, the 3-channel circular mask, the `np.where` hard select and the
region write-back are all translated clause for clause. -/
def apply_blur (blur : ℕ → Image → Image) (st : BlurState) (cx cy : ℤ) :
    BlurState :=
  let h := st.image.h
  let w := st.image.w
  let r := st.radius
  let x1 := bboxX1 cx r
  let y1 := bboxY1 cy r
  let x2 := bboxX2 cx r w
  let y2 := bboxY2 cy r h
  if x2 ≤ x1 ∨ y2 ≤ y1 then st
  else
    let roi := extractRoi st.image x1 y1 x2 y2
    let ksize := st.blur_strength ||| 1
    let blurred_roi := blur ksize roi
    let mask_3ch : ℤ → ℤ → Fin 3 → ℕ :=
      fun ly lx _ => circleMask (cx - x1) (cy - y1) r ly lx
    let roi_out : Image :=
      { w := roi.w, h := roi.h
        pix := fun ly lx c =>
          if mask_3ch ly lx c = 255 then blurred_roi.pix ly lx c
          else roi.pix ly lx c }
    { st with
      image := writeRegion st.image x1 y1 x2 y2 roi_out
      history := st.image :: st.history }

/-- The messages the tool prints in the event loop. -/
inductive Msg where
  | savedTo (path : List Char)
  | exitedWithoutSaving
  | radiusIs (r : ℕ)
  | blurStrengthIs (b : ℕ)
  | didUndo
  | nothingToUndo
  deriving DecidableEq

/-- What the event loop does after handling one event: keep looping, break
saving the live image to a path (`q`, lines 133-137), or break discarding
(`Esc`, lines 139-141). -/
inductive Control where
  | cont
  | quitSave (path : List Char) (saved : Image)
  | quitDiscard

/-- An input event: a mouse move or left click (the mouse callback,
lines 102-106) or a key code from `cv2.waitKey(30) & 0xFF`. -/
inductive Event where
  | mousemove (x y : ℤ)
  | click (x y : ℤ)
  | key (code : ℕ)

/-- Result of handling one event. -/
structure StepResult where
  state : BlurState
  control : Control
  notice : Option Msg

/-- `rfind` (Python `str.rfind` for a single character): index of the last
occurrence of `c`, or `-1` when `c` does not occur. -/
def rfind (c : Char) : List Char → ℤ
  | [] => -1
  | a :: rest =>
    let r := rfind c rest
    if 0 ≤ r then r + 1 else if a = c then 0 else -1

/-- The CPython `genericpath._splitext` split condition: the last dot lies
strictly after the last separator (`dotIndex > sepIndex`), and the while-loop
that skips the leading dots of the basename finds some non-dot character
strictly between them — rendered as the equivalent existential. -/
def splitCond (p : List Char) : Prop :=
  rfind '/' p < rfind '.' p ∧
  ∃ j < p.length, rfind '/' p < (j : ℤ) ∧ (j : ℤ) < rfind '.' p ∧
    p[j]? ≠ some '.'

instance (p : List Char) : Decidable (splitCond p) := by
  unfold splitCond
  infer_instance

/-- `os.path.splitext` (posix flavour, CPython `genericpath._splitext` with
`sep = '/'`, no altsep, `extsep = '.'`): when `splitCond` holds, split at
the last dot; otherwise the extension is empty. -/
def splitext (p : List Char) : List Char × List Char :=
  if splitCond p then
    (p.take (rfind '.' p).toNat, p.drop (rfind '.' p).toNat)
  else (p, [])

/-- The `"_blurred"` tag inserted by `_output_path`. -/
def blurredTag : List Char := "_blurred".toList

/-- `BlurTool._output_path` (lines 111-113):
`base, ext = os.path.splitext(self.image_path); f"{base}_blurred{ext}"`. -/
def output_path (image_path : List Char) : List Char :=
  let be := splitext image_path
  be.1 ++ blurredTag ++ be.2

/-- One iteration of the interactive loop: the key dispatch of `BlurTool.run`
(lines 129-164) plus the mouse callback (lines 102-106).  Key codes are the
ASCII codes the source compares against: `q`=113, `Esc`=27, `+`=43, `=`=61,
`-`=45, `]`=93, `[`=91, `u`=117. -/
def step (blur : ℕ → Image → Image) (st : BlurState) (e : Event) :
    StepResult :=
  match e with
  | .mousemove x y => ⟨{ st with mouse_pos := (x, y) }, .cont, none⟩
  | .click x y => ⟨apply_blur blur st x y, .cont, none⟩
  | .key code =>
    if code = 113 then
      ⟨st, .quitSave (output_path st.image_path) st.image,
        some (.savedTo (output_path st.image_path))⟩
    else if code = 27 then
      ⟨st, .quitDiscard, some .exitedWithoutSaving⟩
    else if code = 43 ∨ code = 61 then
      let st' := { st with radius := min (st.radius + 10) 300 }
      ⟨st', .cont, some (.radiusIs st'.radius)⟩
    else if code = 45 then
      let st' := { st with radius := max (st.radius - 10) 10 }
      ⟨st', .cont, some (.radiusIs st'.radius)⟩
    else if code = 93 then
      let st' := { st with blur_strength := min (st.blur_strength + 10) 199 }
      ⟨st', .cont, some (.blurStrengthIs st'.blur_strength)⟩
    else if code = 91 then
      let st' := { st with blur_strength := max (st.blur_strength - 10) 11 }
      ⟨st', .cont, some (.blurStrengthIs st'.blur_strength)⟩
    else if code = 117 then
      match st.history with
      | prev :: rest =>
        ⟨{ st with image := prev, history := rest }, .cont, some .didUndo⟩
      | [] => ⟨st, .cont, some .nothingToUndo⟩
    else ⟨st, .cont, none⟩

/-- The interactive loop over a queue of events: process until `q` or `Esc`
breaks out, then return the final state. -/
def runEvents (blur : ℕ → Image → Image) (st : BlurState) :
    List Event → BlurState
  | [] => st
  | e :: es =>
    let r := step blur st e
    match r.control with
    | .cont => runEvents blur r.state es
    | _ => r.state

/-- `BlurTool.__init__` (lines 28-40): live image starts as a copy of the
loaded original, history empty, radius 50, blur strength 51, mouse off
screen. -/
def initState (image_path : List Char) (original : Image) : BlurState :=
  { image_path := image_path
    image := original
    history := []
    radius := 50
    blur_strength := 51
    mouse_pos := (-1, -1) }

/-- The behaviour `cv2.GaussianBlur` is relied on for (its contract in the
spec, section 4.2): it preserves the dimensions of the region, and the output
inside the region depends only on the input pixels inside the region (the
convolution, border handling included, reads only the ROI it is given). -/
def LawfulBlur (blur : ℕ → Image → Image) : Prop :=
  (∀ k img, (blur k img).w = img.w ∧ (blur k img).h = img.h) ∧
  ∀ k a b, a.w = b.w → a.h = b.h →
    (∀ x y : ℤ, 0 ≤ x → x < a.w → 0 ≤ y → y < a.h →
      (∀ c, a.pix y x c = b.pix y x c)) →
    ∀ x y : ℤ, 0 ≤ x → x < a.w → 0 ≤ y → y < a.h →
      ∀ c, (blur k a).pix y x c = (blur k b).pix y x c

/-- A trivial dimension-preserving blur (identity), used to instantiate
theorems at concrete inputs. -/
def idBlur : ℕ → Image → Image := fun _ img => img

theorem lawfulBlur_id : LawfulBlur idBlur := by
  refine ⟨fun k img => ⟨rfl, rfl⟩, ?_⟩
  intro k a b hw hh hagree x y hx hxw hy hyh c
  exact hagree x y hx hxw hy hyh c

/-- A small concrete 4 x 4 image for instantiating theorems. -/
def testImg : Image :=
  { w := 4, h := 4, pix := fun y x c => (2 * y + 3 * x).toNat + c }

/-- A concrete starting state over `testImg`. -/
def testState : BlurState := initState "photo.png".toList testImg

/-- `apply_blur` in the non-degenerate case, written out. -/
theorem apply_blur_of_nondegenerate (blur : ℕ → Image → Image)
    (st : BlurState) (cx cy : ℤ)
    (hx : bboxX1 cx st.radius < bboxX2 cx st.radius st.image.w)
    (hy : bboxY1 cy st.radius < bboxY2 cy st.radius st.image.h) :
    apply_blur blur st cx cy =
      { st with
        image := writeRegion st.image (bboxX1 cx st.radius)
          (bboxY1 cy st.radius) (bboxX2 cx st.radius st.image.w)
          (bboxY2 cy st.radius st.image.h)
          (let roi := extractRoi st.image (bboxX1 cx st.radius)
            (bboxY1 cy st.radius) (bboxX2 cx st.radius st.image.w)
            (bboxY2 cy st.radius st.image.h)
           let blurred_roi := blur (st.blur_strength ||| 1) roi
           { w := roi.w, h := roi.h
             pix := fun ly lx c =>
               if circleMask (cx - bboxX1 cx st.radius)
                   (cy - bboxY1 cy st.radius) st.radius ly lx = 255 then
                 blurred_roi.pix ly lx c
               else roi.pix ly lx c })
        history := st.image :: st.history } := by
  unfold apply_blur
  rw [if_neg]
  push_neg
  exact ⟨hx, hy⟩

/-- C2.  When the clamped bounding box is degenerate (`x2 ≤ x1` or
`y2 ≤ y1`), `_apply_blur` is a no-op: the whole state — live buffer and
history stack included — is returned unchanged. -/
theorem degenerate_apply_noop (blur : ℕ → Image → Image) (st : BlurState)
    (cx cy : ℤ)
    (hdeg : bboxX2 cx st.radius st.image.w ≤ bboxX1 cx st.radius ∨
      bboxY2 cy st.radius st.image.h ≤ bboxY1 cy st.radius) :
    apply_blur blur st cx cy = st := by
  unfold apply_blur
  exact if_pos hdeg

/-- Witness for C2 at the spec's own example: a click at `(-1000, -1000)`
on a 4 x 4 image mutates nothing and pushes nothing. -/
theorem degenerate_apply_noop_witness :
    (bboxX2 (-1000) testState.radius testState.image.w ≤
        bboxX1 (-1000) testState.radius ∨
      bboxY2 (-1000) testState.radius testState.image.h ≤
        bboxY1 (-1000) testState.radius) ∧
    apply_blur idBlur testState (-1000) (-1000) = testState :=
  ⟨by decide,
    degenerate_apply_noop idBlur testState (-1000) (-1000) (by decide)⟩

/-- C1.  A non-degenerate `_apply_blur` followed immediately by the undo
key (`u`, code 117) restores the full tool state — in particular the live
buffer, pixel for pixel — to what it was before the apply. -/
theorem apply_undo_roundtrip (blur : ℕ → Image → Image) (st : BlurState)
    (cx cy : ℤ)
    (hx : bboxX1 cx st.radius < bboxX2 cx st.radius st.image.w)
    (hy : bboxY1 cy st.radius < bboxY2 cy st.radius st.image.h) :
    (step blur (apply_blur blur st cx cy) (Event.key 117)).state = st := by
  rw [apply_blur_of_nondegenerate blur st cx cy hx hy]
  rfl

/-- Witness for C1: a concrete state, a click at `(2,2)` (non-degenerate
box on the 4 x 4 test image), then undo. -/
theorem apply_undo_roundtrip_witness :
    (bboxX1 2 testState.radius < bboxX2 2 testState.radius testState.image.w ∧
      bboxY1 2 testState.radius <
        bboxY2 2 testState.radius testState.image.h) ∧
    (step idBlur (apply_blur idBlur testState 2 2) (Event.key 117)).state =
      testState :=
  ⟨⟨by decide, by decide⟩,
    apply_undo_roundtrip idBlur testState 2 2 (by decide) (by decide)⟩

/-- C8.  The undo key with an empty history leaves the state untouched,
reports the informational notice `Nothing to undo.` (no exception is
raised: `step` is a total function), and keeps the loop running
(`Control.cont`), so the session goes on accepting input. -/
theorem undo_empty_history (blur : ℕ → Image → Image) (st : BlurState)
    (h : st.history = []) :
    step blur st (Event.key 117) =
      ⟨st, Control.cont, some Msg.nothingToUndo⟩ := by
  unfold step
  norm_num
  rw [h]

/-- Witness for C8: undo on the freshly initialised state (empty
history). -/
theorem undo_empty_history_witness :
    testState.history = [] ∧
    step idBlur testState (Event.key 117) =
      ⟨testState, Control.cont, some Msg.nothingToUndo⟩ :=
  ⟨rfl, undo_empty_history idBlur testState rfl⟩

/-- C6.  A non-degenerate apply pushes exactly one history entry, equal to
the whole live buffer as it was just before the mutation; and any apply
only ever prepends to the history (the prior entries survive, unaltered, as
a suffix — and being immutable Lean values, the deep copies taken by
`self.image.copy()` can never be changed by later buffer mutation). -/
theorem history_push_snapshot (blur : ℕ → Image → Image) (st : BlurState)
    (cx cy : ℤ)
    (hx : bboxX1 cx st.radius < bboxX2 cx st.radius st.image.w)
    (hy : bboxY1 cy st.radius < bboxY2 cy st.radius st.image.h) :
    (apply_blur blur st cx cy).history = st.image :: st.history ∧
    ∀ (st₂ : BlurState) (cx₂ cy₂ : ℤ),
      st₂.history.IsSuffix (apply_blur blur st₂ cx₂ cy₂).history := by
  constructor
  · rw [apply_blur_of_nondegenerate blur st cx cy hx hy]
  · intro st₂ cx₂ cy₂
    unfold apply_blur
    dsimp only
    split
    · exact List.suffix_refl _
    · exact List.suffix_cons _ _

/-- Witness for C6 at the concrete click of the C1 witness. -/
theorem history_push_snapshot_witness :
    (bboxX1 2 testState.radius < bboxX2 2 testState.radius testState.image.w ∧
      bboxY1 2 testState.radius <
        bboxY2 2 testState.radius testState.image.h) ∧
    (apply_blur idBlur testState 2 2).history =
      testState.image :: testState.history :=
  ⟨⟨by decide, by decide⟩,
    (history_push_snapshot idBlur testState 2 2 (by decide) (by decide)).1⟩

/-- C4.  For a non-degenerate apply, every pixel strictly outside the
clamped bounding box `[x1,x2) x [y1,y2)` is byte-identical after
`_apply_blur` to its value before, and the buffer keeps its dimensions. -/
theorem outside_box_unchanged (blur : ℕ → Image → Image) (st : BlurState)
    (cx cy x y : ℤ)
    (hx : bboxX1 cx st.radius < bboxX2 cx st.radius st.image.w)
    (hy : bboxY1 cy st.radius < bboxY2 cy st.radius st.image.h)
    (hout : x < bboxX1 cx st.radius ∨ bboxX2 cx st.radius st.image.w ≤ x ∨
      y < bboxY1 cy st.radius ∨ bboxY2 cy st.radius st.image.h ≤ y) :
    (apply_blur blur st cx cy).image.w = st.image.w ∧
    (apply_blur blur st cx cy).image.h = st.image.h ∧
    ∀ c, (apply_blur blur st cx cy).image.pix y x c = st.image.pix y x c := by
  rw [apply_blur_of_nondegenerate blur st cx cy hx hy]
  refine ⟨rfl, rfl, fun c => ?_⟩
  show (if bboxX1 cx st.radius ≤ x ∧ x < bboxX2 cx st.radius st.image.w ∧
      bboxY1 cy st.radius ≤ y ∧ y < bboxY2 cy st.radius st.image.h then _
    else st.image.pix y x) c = st.image.pix y x c
  rw [if_neg (by omega)]

/-- Witness for C4: click at `(2,2)` on the 4 x 4 test image (box is the
whole image), pixel `(5,0)` lies outside the box and is unchanged. -/
theorem outside_box_unchanged_witness :
    ((bboxX1 2 testState.radius < bboxX2 2 testState.radius testState.image.w ∧
        bboxY1 2 testState.radius <
          bboxY2 2 testState.radius testState.image.h) ∧
      (5 : ℤ) < bboxX1 2 testState.radius ∨
        bboxX2 2 testState.radius testState.image.w ≤ 5 ∨
        (0 : ℤ) < bboxY1 2 testState.radius ∨
        bboxY2 2 testState.radius testState.image.h ≤ 0) ∧
    ∀ c, (apply_blur idBlur testState 2 2).image.pix 0 5 c =
      testState.image.pix 0 5 c :=
  ⟨by decide,
    (outside_box_unchanged idBlur testState 2 2 5 0 (by decide) (by decide)
      (by decide)).2.2⟩

/-- C5.  Inside the clamped box the compositing is a hard binary select:
the mask takes only the values 0 and 255; it is 255 exactly on the filled
disk of radius `r` about the click (in local coordinates
`(lx-(cx-x1))² + (ly-(cy-y1))² ≤ r²`, equivalently `(x-cx)² + (y-cy)² ≤ r²`
globally); and each output pixel is exactly the blurred ROI pixel where the
mask is 255 and exactly the original pixel where it is 0 — no intermediate
alpha blend. -/
theorem mask_hard_select (blur : ℕ → Image → Image) (st : BlurState)
    (cx cy x y : ℤ)
    (hx : bboxX1 cx st.radius < bboxX2 cx st.radius st.image.w)
    (hy : bboxY1 cy st.radius < bboxY2 cy st.radius st.image.h)
    (hin : bboxX1 cx st.radius ≤ x ∧ x < bboxX2 cx st.radius st.image.w ∧
      bboxY1 cy st.radius ≤ y ∧ y < bboxY2 cy st.radius st.image.h) :
    (circleMask (cx - bboxX1 cx st.radius) (cy - bboxY1 cy st.radius)
        st.radius (y - bboxY1 cy st.radius) (x - bboxX1 cx st.radius) = 0 ∨
      circleMask (cx - bboxX1 cx st.radius) (cy - bboxY1 cy st.radius)
        st.radius (y - bboxY1 cy st.radius) (x - bboxX1 cx st.radius) = 255) ∧
    (circleMask (cx - bboxX1 cx st.radius) (cy - bboxY1 cy st.radius)
        st.radius (y - bboxY1 cy st.radius) (x - bboxX1 cx st.radius) = 255 ↔
      (x - cx) ^ 2 + (y - cy) ^ 2 ≤ (st.radius : ℤ) ^ 2) ∧
    ∀ c, (apply_blur blur st cx cy).image.pix y x c =
      if circleMask (cx - bboxX1 cx st.radius) (cy - bboxY1 cy st.radius)
          st.radius (y - bboxY1 cy st.radius) (x - bboxX1 cx st.radius) = 255
      then (blur (st.blur_strength ||| 1)
          (extractRoi st.image (bboxX1 cx st.radius) (bboxY1 cy st.radius)
            (bboxX2 cx st.radius st.image.w)
            (bboxY2 cy st.radius st.image.h))).pix
          (y - bboxY1 cy st.radius) (x - bboxX1 cx st.radius) c
      else st.image.pix y x c := by
  refine ⟨?_, ?_, ?_⟩
  · unfold circleMask
    split
    · exact Or.inr rfl
    · exact Or.inl rfl
  · unfold circleMask
    constructor
    · intro h
      by_contra hc
      rw [if_neg (by ring_nf; ring_nf at hc; exact hc)] at h
      exact absurd h (by decide)
    · intro h
      rw [if_pos (by ring_nf; ring_nf at h; exact h)]
  · intro c
    rw [apply_blur_of_nondegenerate blur st cx cy hx hy]
    show (if bboxX1 cx st.radius ≤ x ∧ x < bboxX2 cx st.radius st.image.w ∧
        bboxY1 cy st.radius ≤ y ∧ y < bboxY2 cy st.radius st.image.h then _
      else st.image.pix y x) c = _
    rw [if_pos hin]
    show (if circleMask (cx - bboxX1 cx st.radius) (cy - bboxY1 cy st.radius)
          st.radius (y - bboxY1 cy st.radius) (x - bboxX1 cx st.radius) = 255
        then _ else (extractRoi st.image (bboxX1 cx st.radius)
          (bboxY1 cy st.radius) (bboxX2 cx st.radius st.image.w)
          (bboxY2 cy st.radius st.image.h)).pix (y - bboxY1 cy st.radius)
          (x - bboxX1 cx st.radius) c) = _
    have hroi : (extractRoi st.image (bboxX1 cx st.radius)
        (bboxY1 cy st.radius) (bboxX2 cx st.radius st.image.w)
        (bboxY2 cy st.radius st.image.h)).pix (y - bboxY1 cy st.radius)
        (x - bboxX1 cx st.radius) c = st.image.pix y x c := by
      unfold extractRoi
      have h1 : bboxY1 cy st.radius + (y - bboxY1 cy st.radius) = y := by ring
      have h2 : bboxX1 cx st.radius + (x - bboxX1 cx st.radius) = x := by ring
      show st.image.pix (bboxY1 cy st.radius + (y - bboxY1 cy st.radius))
        (bboxX1 cx st.radius + (x - bboxX1 cx st.radius)) c =
        st.image.pix y x c
      rw [h1, h2]
    rw [hroi]

/-- Witness for C5: the in-box pixel `(1,1)` of the C1 witness click. -/
theorem mask_hard_select_witness :
    ((bboxX1 2 testState.radius < bboxX2 2 testState.radius testState.image.w ∧
        bboxY1 2 testState.radius <
          bboxY2 2 testState.radius testState.image.h) ∧
      (bboxX1 2 testState.radius ≤ 1 ∧
        (1 : ℤ) < bboxX2 2 testState.radius testState.image.w ∧
        bboxY1 2 testState.radius ≤ 1 ∧
        (1 : ℤ) < bboxY2 2 testState.radius testState.image.h)) ∧
    (circleMask (2 - bboxX1 2 testState.radius) (2 - bboxY1 2 testState.radius)
        testState.radius (1 - bboxY1 2 testState.radius)
        (1 - bboxX1 2 testState.radius) = 255 ↔
      ((1 : ℤ) - 2) ^ 2 + ((1 : ℤ) - 2) ^ 2 ≤ (testState.radius : ℤ) ^ 2) :=
  ⟨by decide,
    (mask_hard_select idBlur testState 2 2 1 1 (by decide) (by decide)
      ⟨by decide, by decide, by decide, by decide⟩).2.1⟩

/-- The parameter invariant maintained by the event loop: radius in
`[10,300]`, blur strength odd and in `[11,199]`. -/
def paramsInv (st : BlurState) : Prop :=
  10 ≤ st.radius ∧ st.radius ≤ 300 ∧
  11 ≤ st.blur_strength ∧ st.blur_strength ≤ 199 ∧ st.blur_strength % 2 = 1

theorem apply_blur_params (blur : ℕ → Image → Image) (st : BlurState)
    (cx cy : ℤ) :
    (apply_blur blur st cx cy).radius = st.radius ∧
    (apply_blur blur st cx cy).blur_strength = st.blur_strength := by
  unfold apply_blur
  dsimp only
  split
  · exact ⟨rfl, rfl⟩
  · exact ⟨rfl, rfl⟩

theorem paramsInv_step (blur : ℕ → Image → Image) (st : BlurState)
    (e : Event) (h : paramsInv st) : paramsInv (step blur st e).state := by
  cases e with
  | mousemove x y => exact h
  | click x y =>
    have hp := apply_blur_params blur st x y
    unfold paramsInv at h ⊢
    unfold step
    rw [hp.1, hp.2]
    exact h
  | key code =>
    unfold step
    dsimp only
    split_ifs with h1 h2 h3 h4 h5 h6 h7
    all_goals try exact h
    all_goals try (unfold paramsInv at h ⊢; dsimp only; omega)
    · cases st.history with
      | nil => exact h
      | cons prev rest => exact h

theorem paramsInv_runEvents (blur : ℕ → Image → Image) (st : BlurState)
    (es : List Event) (h : paramsInv st) :
    paramsInv (runEvents blur st es) := by
  induction es generalizing st with
  | nil => exact h
  | cons e es ih =>
    unfold runEvents
    dsimp only
    split
    · exact ih _ (paramsInv_step blur st e h)
    · exact paramsInv_step blur st e h

theorem paramsInv_initState (path : List Char) (img : Image) :
    paramsInv (initState path img) := by
  show 10 ≤ 50 ∧ 50 ≤ 300 ∧ 11 ≤ 51 ∧ 51 ≤ 199 ∧ 51 % 2 = 1
  omega

/-- C7.  The radius starts at 50 and the blur strength at 51; after any
sequence of events the radius stays in `[10,300]` and the blur strength in
`[11,199]`; and each adjustment key moves its parameter by exactly 10 when
away from the bound and holds at the bound otherwise (increase holds at
300 / 199, decrease holds at 10 / 11). -/
theorem params_clamped (blur : ℕ → Image → Image) (path : List Char)
    (img : Image) (events : List Event) (st : BlurState) :
    (initState path img).radius = 50 ∧
    (initState path img).blur_strength = 51 ∧
    (10 ≤ (runEvents blur (initState path img) events).radius ∧
      (runEvents blur (initState path img) events).radius ≤ 300 ∧
      11 ≤ (runEvents blur (initState path img) events).blur_strength ∧
      (runEvents blur (initState path img) events).blur_strength ≤ 199) ∧
    (st.radius ≤ 290 →
      (step blur st (Event.key 43)).state.radius = st.radius + 10) ∧
    (st.radius = 300 → (step blur st (Event.key 43)).state.radius = 300) ∧
    (20 ≤ st.radius →
      (step blur st (Event.key 45)).state.radius = st.radius - 10) ∧
    (st.radius = 10 → (step blur st (Event.key 45)).state.radius = 10) ∧
    (st.blur_strength ≤ 189 →
      (step blur st (Event.key 93)).state.blur_strength =
        st.blur_strength + 10) ∧
    (st.blur_strength = 199 →
      (step blur st (Event.key 93)).state.blur_strength = 199) ∧
    (21 ≤ st.blur_strength →
      (step blur st (Event.key 91)).state.blur_strength =
        st.blur_strength - 10) ∧
    (st.blur_strength = 11 →
      (step blur st (Event.key 91)).state.blur_strength = 11) := by
  have hrun := paramsInv_runEvents blur (initState path img) events
    (paramsInv_initState path img)
  unfold paramsInv at hrun
  refine ⟨rfl, rfl, ⟨hrun.1, hrun.2.1, hrun.2.2.1, hrun.2.2.2.1⟩,
    ?_, ?_, ?_, ?_, ?_, ?_, ?_, ?_⟩ <;> (intro hb; simp [step]; omega)

/-- Witness for C7: the concrete initial state moves by exactly 10 in each
direction, and states pinned at each bound hold there. -/
theorem params_clamped_witness :
    ((10 ≤ (runEvents idBlur (initState [] testImg) [Event.key 43]).radius ∧
        (runEvents idBlur (initState [] testImg) [Event.key 43]).radius ≤ 300 ∧
        11 ≤ (runEvents idBlur (initState [] testImg)
          [Event.key 43]).blur_strength ∧
        (runEvents idBlur (initState [] testImg)
          [Event.key 43]).blur_strength ≤ 199) ∧
      (step idBlur testState (Event.key 43)).state.radius =
        testState.radius + 10 ∧
      (step idBlur testState (Event.key 45)).state.radius =
        testState.radius - 10 ∧
      (step idBlur testState (Event.key 93)).state.blur_strength =
        testState.blur_strength + 10 ∧
      (step idBlur testState (Event.key 91)).state.blur_strength =
        testState.blur_strength - 10) ∧
    (step idBlur { testState with radius := 300 }
      (Event.key 43)).state.radius = 300 ∧
    (step idBlur { testState with radius := 10 }
      (Event.key 45)).state.radius = 10 ∧
    (step idBlur { testState with blur_strength := 199 }
      (Event.key 93)).state.blur_strength = 199 ∧
    (step idBlur { testState with blur_strength := 11 }
      (Event.key 91)).state.blur_strength = 11 :=
  ⟨⟨(params_clamped idBlur [] testImg [Event.key 43] testState).2.2.1,
    (params_clamped idBlur [] testImg [] testState).2.2.2.1 (by decide),
    (params_clamped idBlur [] testImg [] testState).2.2.2.2.2.1 (by decide),
    (params_clamped idBlur [] testImg [] testState).2.2.2.2.2.2.2.1
      (by decide),
    (params_clamped idBlur [] testImg []
      testState).2.2.2.2.2.2.2.2.2.1 (by decide)⟩,
    (params_clamped idBlur [] testImg []
      { testState with radius := 300 }).2.2.2.2.1 rfl,
    (params_clamped idBlur [] testImg []
      { testState with radius := 10 }).2.2.2.2.2.2.1 rfl,
    (params_clamped idBlur [] testImg []
      { testState with blur_strength := 199 }).2.2.2.2.2.2.2.2.1 rfl,
    (params_clamped idBlur [] testImg []
      { testState with blur_strength := 11 }).2.2.2.2.2.2.2.2.2.2 rfl⟩

set_option maxRecDepth 4000 in
theorem lor_one_of_odd_le : ∀ b < 200, b % 2 = 1 → b ||| 1 = b := by decide

/-- C10.  In every reachable session state the stored blur strength is odd
(start 51, steps of ±10 preserve parity, both clamps 11 and 199 are odd),
so the use-time coercion `ksize = blur_strength | 1` at line 85 is the
identity. -/
theorem blur_strength_always_odd (blur : ℕ → Image → Image)
    (path : List Char) (img : Image) (events : List Event) :
    Odd (runEvents blur (initState path img) events).blur_strength ∧
    (runEvents blur (initState path img) events).blur_strength ||| 1 =
      (runEvents blur (initState path img) events).blur_strength := by
  have hrun := paramsInv_runEvents blur (initState path img) events
    (paramsInv_initState path img)
  unfold paramsInv at hrun
  refine ⟨Nat.odd_iff.mpr hrun.2.2.2.2, ?_⟩
  exact lor_one_of_odd_le _ (by omega) hrun.2.2.2.2

/-- C3.  `_apply_blur` clamps the bounding box exactly as
`x1 = max(cx-r,0)`, `y1 = max(cy-r,0)`, `x2 = min(cx+r,w)`,
`y2 = min(cy+r,h)`; for a 10 x 10 image, a click at `(0,0)` with radius 50
this yields the whole image `[0,10) x [0,10)`; all writes stay inside the
clamped box (any pixel outside it is untouched, degenerate case included);
and all reads stay inside it: the output inside the box is unchanged if the
input image is replaced by any same-sized image that agrees with it on the
box (given that the blur itself reads only the ROI it is handed, which is
the `LawfulBlur` contract of `cv2.GaussianBlur`). -/
theorem bbox_clamped_and_local (blur : ℕ → Image → Image)
    (hb : LawfulBlur blur) (st : BlurState) (imgB : Image) (cx cy : ℤ)
    (w h r : ℕ) (hw : imgB.w = st.image.w) (hh : imgB.h = st.image.h)
    (hagree : ∀ x y : ℤ, bboxX1 cx st.radius ≤ x →
      x < bboxX2 cx st.radius st.image.w → bboxY1 cy st.radius ≤ y →
      y < bboxY2 cy st.radius st.image.h →
      ∀ c, st.image.pix y x c = imgB.pix y x c) :
    (bboxX1 cx r = max (cx - r) 0 ∧ bboxY1 cy r = max (cy - r) 0 ∧
      bboxX2 cx r w = min (cx + r) w ∧ bboxY2 cy r h = min (cy + r) h) ∧
    (bboxX1 0 50 = 0 ∧ bboxY1 0 50 = 0 ∧ bboxX2 0 50 10 = 10 ∧
      bboxY2 0 50 10 = 10) ∧
    (∀ x y : ℤ,
      (x < bboxX1 cx st.radius ∨ bboxX2 cx st.radius st.image.w ≤ x ∨
        y < bboxY1 cy st.radius ∨ bboxY2 cy st.radius st.image.h ≤ y) →
      ∀ c, (apply_blur blur st cx cy).image.pix y x c =
        st.image.pix y x c) ∧
    (∀ x y : ℤ, bboxX1 cx st.radius ≤ x →
      x < bboxX2 cx st.radius st.image.w → bboxY1 cy st.radius ≤ y →
      y < bboxY2 cy st.radius st.image.h →
      ∀ c, (apply_blur blur st cx cy).image.pix y x c =
        (apply_blur blur { st with image := imgB } cx cy).image.pix y x c) := by
  refine ⟨⟨rfl, rfl, rfl, rfl⟩, ⟨by decide, by decide, by decide, by decide⟩,
    ?_, ?_⟩
  · intro x y hout c
    by_cases hdx : bboxX2 cx st.radius st.image.w ≤ bboxX1 cx st.radius
    · rw [degenerate_apply_noop blur st cx cy (Or.inl hdx)]
    · by_cases hdy : bboxY2 cy st.radius st.image.h ≤ bboxY1 cy st.radius
      · rw [degenerate_apply_noop blur st cx cy (Or.inr hdy)]
      · exact (outside_box_unchanged blur st cx cy x y (by omega) (by omega)
          hout).2.2 c
  · intro x y hx1 hx2 hy1 hy2 c
    have hxlt : bboxX1 cx st.radius < bboxX2 cx st.radius st.image.w := by
      omega
    have hylt : bboxY1 cy st.radius < bboxY2 cy st.radius st.image.h := by
      omega
    have hxltB : bboxX1 cx st.radius < bboxX2 cx st.radius imgB.w := by
      rw [hw]; exact hxlt
    have hyltB : bboxY1 cy st.radius < bboxY2 cy st.radius imgB.h := by
      rw [hh]; exact hylt
    rw [apply_blur_of_nondegenerate blur st cx cy hxlt hylt,
      apply_blur_of_nondegenerate blur { st with image := imgB } cx cy
        hxltB hyltB]
    dsimp only
    rw [hw, hh]
    show (if bboxX1 cx st.radius ≤ x ∧ x < bboxX2 cx st.radius st.image.w ∧
        bboxY1 cy st.radius ≤ y ∧ y < bboxY2 cy st.radius st.image.h then _
      else st.image.pix y x) c =
      (if bboxX1 cx st.radius ≤ x ∧ x < bboxX2 cx st.radius st.image.w ∧
        bboxY1 cy st.radius ≤ y ∧ y < bboxY2 cy st.radius st.image.h then _
      else imgB.pix y x) c
    rw [if_pos ⟨hx1, hx2, hy1, hy2⟩, if_pos ⟨hx1, hx2, hy1, hy2⟩]
    have hroiagree : ∀ lx ly : ℤ,
        0 ≤ lx → lx + bboxX1 cx st.radius < bboxX2 cx st.radius st.image.w →
        0 ≤ ly → ly + bboxY1 cy st.radius < bboxY2 cy st.radius st.image.h →
        ∀ c', (extractRoi st.image (bboxX1 cx st.radius)
            (bboxY1 cy st.radius) (bboxX2 cx st.radius st.image.w)
            (bboxY2 cy st.radius st.image.h)).pix ly lx c' =
          (extractRoi imgB (bboxX1 cx st.radius) (bboxY1 cy st.radius)
            (bboxX2 cx st.radius st.image.w)
            (bboxY2 cy st.radius st.image.h)).pix ly lx c' := by
      intro lx ly hlx hlxu hly hlyu c'
      exact hagree (bboxX1 cx st.radius + lx) (bboxY1 cy st.radius + ly)
        (by omega) (by omega) (by omega) (by omega) c'
    dsimp only
    split
    · refine hb.2 (st.blur_strength ||| 1)
        (extractRoi st.image (bboxX1 cx st.radius) (bboxY1 cy st.radius)
          (bboxX2 cx st.radius st.image.w) (bboxY2 cy st.radius st.image.h))
        (extractRoi imgB (bboxX1 cx st.radius) (bboxY1 cy st.radius)
          (bboxX2 cx st.radius st.image.w) (bboxY2 cy st.radius st.image.h))
        rfl rfl ?_ (x - bboxX1 cx st.radius) (y - bboxY1 cy st.radius)
        (by omega) (by simp only [extractRoi]; omega)
        (by omega) (by simp only [extractRoi]; omega) c
      intro lx ly hlx hlxu hly hlyu c'
      simp only [extractRoi] at hlxu hlyu
      exact hroiagree lx ly hlx (by omega) hly (by omega) c'
    · exact hroiagree (x - bboxX1 cx st.radius) (y - bboxY1 cy st.radius)
        (by omega) (by omega) (by omega) (by omega) c

/-- Witness for C3: the spec's 10 x 10 scenario, with the identity blur
(which satisfies the GaussianBlur contract) and the test state compared
against its own image. -/
theorem bbox_clamped_and_local_witness :
    (testImg.w = testState.image.w ∧ testImg.h = testState.image.h) ∧
    (bboxX1 0 50 = 0 ∧ bboxY1 0 50 = 0 ∧ bboxX2 0 50 10 = 10 ∧
      bboxY2 0 50 10 = 10) :=
  ⟨⟨rfl, rfl⟩,
    (bbox_clamped_and_local idBlur lawfulBlur_id testState testImg 0 0 10 10
      50 rfl rfl (fun _ _ _ _ _ _ _ => rfl)).2.1⟩

theorem neg_one_le_rfind (c : Char) (l : List Char) : -1 ≤ rfind c l := by
  induction l with
  | nil => simp [rfind]
  | cons a rest ih =>
    unfold rfind
    dsimp only
    split_ifs <;> omega

theorem rfind_lt_length (c : Char) (l : List Char) :
    rfind c l < (l.length : ℤ) := by
  induction l with
  | nil => simp [rfind]
  | cons a rest ih =>
    unfold rfind
    dsimp only
    simp only [List.length_cons]
    split_ifs <;> push_cast <;> omega

theorem rfind_append (c : Char) (l₁ l₂ : List Char) :
    rfind c (l₁ ++ l₂) =
      if 0 ≤ rfind c l₂ then (l₁.length : ℤ) + rfind c l₂
      else rfind c l₁ := by
  induction l₁ with
  | nil =>
    show rfind c l₂ = if 0 ≤ rfind c l₂ then ((0 : ℕ) : ℤ) + rfind c l₂
      else rfind c []
    have h := neg_one_le_rfind c l₂
    have h0 : rfind c ([] : List Char) = -1 := rfl
    split_ifs <;> push_cast <;> omega
  | cons a rest ih =>
    rw [List.cons_append]
    show (if 0 ≤ rfind c (rest ++ l₂) then rfind c (rest ++ l₂) + 1
      else if a = c then 0 else -1) = _
    rw [ih]
    show _ = (if 0 ≤ rfind c l₂ then (((rest.length + 1 : ℕ) : ℤ)) + rfind c l₂
      else if 0 ≤ rfind c rest then rfind c rest + 1
        else if a = c then 0 else -1)
    split_ifs <;> push_cast <;> omega
theorem rfind_tag_dot : rfind '.' blurredTag = -1 := by decide

theorem rfind_tag_slash : rfind '/' blurredTag = -1 := by decide

theorem blurredTag_length : blurredTag.length = 8 := by decide

theorem rfind_append_tag (c : Char) (p : List Char)
    (hct : rfind c blurredTag = -1) :
    rfind c (p ++ blurredTag) = rfind c p := by
  rw [rfind_append, hct]
  norm_num

theorem rfind_drop_of_eq (c : Char) (p : List Char) (n : ℕ)
    (hn : n ≤ p.length) (heq : rfind c p = (n : ℤ)) :
    rfind c (p.drop n) = 0 := by
  have h := rfind_append c (p.take n) (p.drop n)
  rw [List.take_append_drop] at h
  have hAlen : (p.take n).length = n := by rw [List.length_take]; omega
  rw [hAlen] at h
  by_cases h2 : 0 ≤ rfind c (p.drop n)
  · rw [if_pos h2] at h
    omega
  · rw [if_neg h2] at h
    have hlt := rfind_lt_length c (p.take n)
    rw [hAlen] at hlt
    omega

theorem rfind_parts_of_lt (c : Char) (p : List Char) (n : ℕ)
    (hn : n ≤ p.length) (hlt : rfind c p < (n : ℤ)) :
    rfind c (p.drop n) < 0 ∧ rfind c (p.take n) = rfind c p := by
  have h := rfind_append c (p.take n) (p.drop n)
  rw [List.take_append_drop] at h
  have hAlen : (p.take n).length = n := by rw [List.length_take]; omega
  rw [hAlen] at h
  by_cases h2 : 0 ≤ rfind c (p.drop n)
  · rw [if_pos h2] at h
    omega
  · rw [if_neg h2] at h
    exact ⟨by omega, h.symm⟩

theorem splitext_output_path (p : List Char) :
    splitext (output_path p) =
      ((splitext p).1 ++ blurredTag, (splitext p).2) := by
  by_cases hc : splitCond p
  · -- split case
    have hd0 : 0 ≤ rfind '.' p := by
      obtain ⟨hsd, j, hjlen, hsj, hjd, hne⟩ := hc
      have hge := neg_one_le_rfind '/' p
      omega
    have hdlt := rfind_lt_length '.' p
    have hdz : ((rfind '.' p).toNat : ℤ) = rfind '.' p :=
      Int.toNat_of_nonneg hd0
    set d := (rfind '.' p).toNat with hd
    have hdle : d ≤ p.length := by omega
    have hsp : splitext p = (p.take d, p.drop d) := by
      unfold splitext
      rw [if_pos hc]
    have hAlen : (p.take d).length = d := by rw [List.length_take]; omega
    have hdot_drop : rfind '.' (p.drop d) = 0 :=
      rfind_drop_of_eq '.' p d hdle (by omega)
    have hslash : rfind '/' p < (d : ℤ) := by
      have := hc.1
      omega
    have hparts := rfind_parts_of_lt '/' p d hdle hslash
    have hABlen : (p.take d ++ blurredTag).length = d + 8 := by
      rw [List.length_append, hAlen, blurredTag_length]
    have hout : output_path p = (p.take d ++ blurredTag) ++ p.drop d := by
      unfold output_path
      rw [hsp]
    have hdotP : rfind '.' ((p.take d ++ blurredTag) ++ p.drop d) =
        (d : ℤ) + 8 := by
      rw [rfind_append, if_pos (by rw [hdot_drop]), hdot_drop, hABlen]
      push_cast
      ring
    have hslashP : rfind '/' ((p.take d ++ blurredTag) ++ p.drop d) =
        rfind '/' p := by
      rw [rfind_append, if_neg (by omega), rfind_append_tag _ _
        rfind_tag_slash]
      exact hparts.2
    have hPlen : ((p.take d ++ blurredTag) ++ p.drop d).length =
        p.length + 8 := by
      rw [List.length_append, hABlen, List.length_drop]
      omega
    have hget : ((p.take d ++ blurredTag) ++ p.drop d)[d]? = some '_' := by
      rw [List.append_assoc, List.getElem?_append_right (by omega : (p.take d).length ≤ d)]
      rw [hAlen, Nat.sub_self]
      rw [List.getElem?_append_left (show 0 < blurredTag.length by decide)]
      decide
    have hcondP : splitCond ((p.take d ++ blurredTag) ++ p.drop d) := by
      unfold splitCond
      rw [hdotP, hslashP, hPlen]
      refine ⟨by omega, d, by omega, by omega, by omega, ?_⟩
      rw [hget]
      decide
    rw [hout, hsp]
    unfold splitext
    rw [if_pos hcondP, hdotP]
    have htn : ((d : ℤ) + 8).toNat = d + 8 := by omega
    rw [htn, Prod.mk.injEq]
    refine ⟨?_, ?_⟩
    · show List.take (d + 8) _ = List.take d p ++ blurredTag
      rw [← hABlen, List.take_left]
    · show List.drop (d + 8) _ = List.drop d p
      rw [← hABlen, List.drop_left]
  · -- no-split case
    have hsp : splitext p = (p, []) := by
      unfold splitext
      rw [if_neg hc]
    have hout : output_path p = p ++ blurredTag := by
      unfold output_path
      rw [hsp]
      dsimp only
      rw [List.append_nil]
    rw [hout, hsp]
    unfold splitext
    rw [if_neg ?hcond]
    case hcond =>
      intro hc'
      apply hc
      unfold splitCond at hc' ⊢
      rw [rfind_append_tag _ _ rfind_tag_dot,
        rfind_append_tag _ _ rfind_tag_slash] at hc'
      obtain ⟨hsd, j, hjlen, hsj, hjd, hne⟩ := hc'
      have hdlt := rfind_lt_length '.' p
      have hjp : j < p.length := by omega
      refine ⟨hsd, j, hjp, hsj, hjd, ?_⟩
      exact (List.getElem?_append_left hjp) ▸ hne

/-- C9.  On the save-and-quit key (`q`, code 113) the loop writes the live
buffer to the path computed by `_output_path`, which inserts the
`_blurred` tag immediately before the extension found by
`os.path.splitext`: every path decomposes as `base ++ ext`, the output is
`base ++ "_blurred" ++ ext`, and splitting the output path again returns
the very same extension (the tag lands at the end of the base, the
extension is unchanged). -/
theorem output_path_suffix :
    (∀ (blur : ℕ → Image → Image) (st : BlurState),
      (step blur st (Event.key 113)).control =
        Control.quitSave (output_path st.image_path) st.image) ∧
    ∀ p : List Char,
      (splitext p).1 ++ (splitext p).2 = p ∧
      output_path p = (splitext p).1 ++ blurredTag ++ (splitext p).2 ∧
      splitext (output_path p) =
        ((splitext p).1 ++ blurredTag, (splitext p).2) := by
  refine ⟨fun blur st => rfl, fun p => ⟨?_, rfl, splitext_output_path p⟩⟩
  unfold splitext
  split
  · exact List.take_append_drop _ p
  · exact List.append_nil p

end BlurFaces
